import Mathlib

/-!
Verification development for the roocode-memorybank-optimized repository.

The repository is a TypeScript file-based documentation tool.  Its core logic
(`src/enhanced-memory-bank.ts` and `src/memory-bank.ts`) is shallowly embedded
here:

* document contents, file names and paths are `List Char` (JS strings are
  UTF-16 code-unit sequences; every string this repository manipulates is
  ASCII, where code units and code points agree, so `List Char` is exact);
* the filesystem is an association list from paths to file contents, with
  read / write (create-or-overwrite) / move primitives mirroring the
  `fs-extra` calls the code makes;
* `String.prototype.match` / `String.prototype.replace` with the specific
  regexes the code builds are compiled to explicit leftmost-match searching
  functions (`findSub`), as documented at each definition;
* wall-clock readings (`new Date()`, `getTimestamp()` outputs) are inputs,
  passed in explicitly, since they are external to the program.
-/

set_option maxRecDepth 40000

namespace MemBank

/-- Abbreviation used throughout: a JS string as its list of characters. -/
abbrev JStr := List Char

/-- Conversion from a Lean string literal to the character-list representation. -/
def chars (s : String) : JStr := s.toList

/-!
## Substring search

`findSub pat s` returns the index of the leftmost occurrence of `pat` in `s`
(`none` if there is no occurrence).  This is the semantics of
`String.prototype.indexOf` and of the leftmost-match rule of JS regexes when
the pattern is a literal string.
-/

/-- Index of the leftmost occurrence of `pat` in `s`, if any. -/
def findSub (pat : JStr) : JStr → Option Nat
  | [] => if pat.isEmpty then some 0 else none
  | c :: rest =>
    if pat.isPrefixOf (c :: rest) then some 0
    else (findSub pat rest).map (· + 1)

/-- Whether `pat` occurs somewhere in `s` (JS `String.prototype.includes`). -/
def containsSub (pat s : JStr) : Bool := (findSub pat s).isSome

/-!
## Section editor

`extractSection` and `updateSection`
(`src/enhanced-memory-bank.ts`, lines 152-168) both build the regex

  new RegExp(`${sectionHeader}\n([\s\S]*?)(?=\n## |$)`)

For a heading string free of regex metacharacters (true of every heading the
repository uses, e.g. "## Current Focus"), this regex matches at the leftmost
occurrence of `sectionHeader ++ "\n"`; the lazy group `([\s\S]*?)` then takes
the shortest text such that the lookahead succeeds, i.e. it stops at the first
later occurrence of `"\n## "`, or extends to the end of the string (the `$`
alternative, which always lets the whole regex match once the heading line is
found).  The functions below are that semantics, spelled out with `findSub`.
-/

/-- Lookahead pattern of the section regex: a newline starting a second-level
heading. -/
def nlHH : JStr := chars "\n## "

/-- Length of the lazily-matched section body: up to the first following
occurrence of `"\n## "`, or to the end of the string. -/
def sectionStop (body : JStr) : Nat :=
  match findSub nlHH body with
  | none => body.length
  | some j => j

/-- JS whitespace test used by `String.prototype.trim` (the code points the
repository's documents can contain; the full JS set also has exotic Unicode
space separators, none of which occur here). -/
def isJsWs (c : Char) : Bool :=
  c = ' ' ∨ c = '\t' ∨ c = '\n' ∨ c = '\r' ∨ c = '\x0b' ∨ c = '\x0c'

/-- JS `String.prototype.trim`, right side. -/
def trimRightJs (s : JStr) : JStr := (s.reverse.dropWhile isJsWs).reverse

/-- JS `String.prototype.trim`: strip whitespace from both ends. -/
def trimJs (s : JStr) : JStr := (trimRightJs s).dropWhile isJsWs

/-- Numeric value of a decimal digit character. -/
def digitVal (c : Char) : Nat := c.toNat - '0'.toNat

/-- The backquote code point (96), written numerically. -/
def backquoteChar : Char := Char.ofNat 96

/-- The single-quote code point (39), written numerically. -/
def singleQuoteChar : Char := Char.ofNat 39

/-- Digit test on the head of a string (empty: no). -/
def headIsDigit : JStr → Bool
  | [] => false
  | c :: _ => c.isDigit

/-- ECMA-262 GetSubstitution: the processing JS `String.prototype.replace`
applies to its replacement string.  `matched` is the matched substring,
`before` the part of the subject before the match, `after` the part after it,
and `captures` the list of captured group values (`m` groups; every regex the
repository builds has zero or one group, and its group, when present, always
participates).  Dollar escapes: `$$` is a literal dollar, `$&` re-inserts the
match, a dollar-backquote the text before the match, a dollar-quote the text
after it; `$n` (1-9, not followed by a digit) and `$nn` (01-99) insert the
n-th capture when `n ≤ m` and otherwise stay literal; any other dollar is
literal (no named groups exist here, so a dollar followed by `<` is also
literal).  After a literal (non-escape) dollar the scan resumes at the next
code unit; that code unit is never itself a dollar in the branches below that
emit a literal dollar, so resuming equals emitting it and continuing after
it, which keeps the recursion structural. -/
def getSubstitution (matched before after : JStr) (captures : List JStr) :
    JStr → JStr
  | [] => []
  | x :: rest =>
    if x = '$' then
      match rest with
      | [] => ['$']
      | y :: t =>
        if y = '$' then '$' :: getSubstitution matched before after captures t
        else if y = '&' then matched ++ getSubstitution matched before after captures t
        else if y = backquoteChar then before ++ getSubstitution matched before after captures t
        else if y = singleQuoteChar then after ++ getSubstitution matched before after captures t
        else if y.isDigit ∧ headIsDigit t then
          match t with
          | d :: t2 =>
            if 1 ≤ digitVal y * 10 + digitVal d ∧
                digitVal y * 10 + digitVal d ≤ captures.length then
              captures.getD (digitVal y * 10 + digitVal d - 1) [] ++
                getSubstitution matched before after captures t2
            else '$' :: y :: d :: getSubstitution matched before after captures t2
          | [] => ['$', y]
        else if y.isDigit ∧ 1 ≤ digitVal y ∧ digitVal y ≤ captures.length then
          captures.getD (digitVal y - 1) [] ++
            getSubstitution matched before after captures t
        else '$' :: y :: getSubstitution matched before after captures t
    else x :: getSubstitution matched before after captures rest

/-- Embedding of `EnhancedMemoryBank.extractSection` (lines 152-156): match
the section regex against `content` and return the trimmed captured body, or
the empty string when there is no match.  The regex matches iff
`sectionHeader ++ "\n"` occurs in `content`. -/
def extractSection (content sectionHeader : JStr) : JStr :=
  match findSub (sectionHeader ++ ['\n']) content with
  | none => []
  | some i =>
    let body := content.drop (i + sectionHeader.length + 1)
    trimJs (body.take (sectionStop body))

/-- Embedding of `EnhancedMemoryBank.updateSection` (lines 165-168): replace
the first match of the section regex by the replacement template
`${sectionHeader}\n${newContent}\n`, processed by `getSubstitution` with the
single captured group (the old section body) as the JS `replace` does; return
`content` unchanged when there is no match. -/
def updateSection (content sectionHeader newContent : JStr) : JStr :=
  match findSub (sectionHeader ++ ['\n']) content with
  | none => content
  | some i =>
    let body := content.drop (i + sectionHeader.length + 1)
    let cap := body.take (sectionStop body)
    content.take i ++
      getSubstitution (sectionHeader ++ '\n' :: cap) (content.take i)
        (body.drop (sectionStop body)) [cap]
        (sectionHeader ++ '\n' :: (newContent ++ ['\n'])) ++
      body.drop (sectionStop body)

/-- JS `String.prototype.replace` with a literal string pattern (or a
capture-free literal regex): replace the first occurrence of `pat` by `repl`
processed by `getSubstitution` with no captures. -/
def jsReplace (pat repl s : JStr) : JStr :=
  match findSub pat s with
  | none => s
  | some i =>
    s.take i ++
      getSubstitution pat (s.take i) (s.drop (i + pat.length)) [] repl ++
      s.drop (i + pat.length)

/-!
## Statistics tracker

Embedding of `EnhancedMemoryBank.trackStatistics`
(`src/enhanced-memory-bank.ts`, lines 406-479).  External inputs are passed
explicitly:

* `minutesSpent` is the JS value `Math.round((now - lastUpdate) / (1000*60))`,
  an integer computed from two wall-clock readings;
* `gitDiffMatch` is the result of matching the summary regex
  `/(\d+) files? changed, (\d+) insertions?\(\+\), (\d+) deletions?\(-\)/`
  against the `git diff --stat` subprocess output: `none` when the subprocess
  failed or the line is absent, otherwise the three captured counts;
* `gitLsMatch` likewise holds the count captured from the `"(\d+) total"`
  trailer of the line-counting pipeline, `none` on failure or no match.

`estimatedCost` is computed in exact rational arithmetic; the JS original uses
IEEE doubles, so the field is a real-arithmetic idealization (no claim in
scope depends on it).  `Math.floor(x/60)` on an integer is `Int.fdiv`,
JS `%` is the truncating remainder `Int.tmod`, and `Math.round` is
`round = fun x => Int.floor (x + 1/2)`.
-/

/-- Statistics record returned by `trackStatistics` (interface `Statistics`,
lines 28-37 of `enhanced-memory-bank.ts`). -/
structure Statistics where
  timeSpent : String
  estimatedCost : ℚ
  filesCreated : Nat
  filesModified : Nat
  filesDeleted : Nat
  linesAdded : Nat
  linesRemoved : Nat
  totalLines : Nat
deriving Repr, DecidableEq

/-- Embedding of `trackStatistics`: the success path of the function body (the
outer catch returns the all-zero record and is not reachable in the model,
where every read is total). -/
def trackStatistics (minutesSpent : Int) (developerHourlyRate : ℚ)
    (gitDiffMatch : Option (Nat × Nat × Nat)) (gitLsMatch : Option Nat) :
    Statistics :=
  let hoursSpent : Int := Int.fdiv minutesSpent 60
  let remainingMinutes : Int := Int.tmod minutesSpent 60
  let timeSpent : String := toString hoursSpent ++ "h " ++ toString remainingMinutes ++ "m"
  let estimatedCost : ℚ := (round ((minutesSpent : ℚ) / 60 * developerHourlyRate * 100) : ℤ) / 100
  let filesModified : Nat := match gitDiffMatch with
    | some (f, _, _) => f
    | none => 0
  let linesAdded : Nat := match gitDiffMatch with
    | some (_, a, _) => a
    | none => 0
  let linesRemoved : Nat := match gitDiffMatch with
    | some (_, _, r) => r
    | none => 0
  let totalLines : Nat := match gitLsMatch with
    | some n => n
    | none => 0
  ⟨timeSpent, estimatedCost, 0, filesModified, 0, linesAdded, linesRemoved, totalLines⟩

/-!
## Session manager

Embedding of the session-file lifecycle of `EnhancedMemoryBank`
(`src/enhanced-memory-bank.ts`, lines 257-333).  A directory listing is a list
of `(file name, file content)` pairs; real directories never repeat a name,
which is assumed (`Nodup`) where a theorem needs to speak about "the" file
with a given name.
-/

/-- JS string `<` comparison: lexicographic on UTF-16 code units, which for
the ASCII names this repository generates coincides with code points.  This
is the order underlying the default `Array.prototype.sort()` comparator and
the `<` operator used on date strings. -/
def jsStrLt : JStr → JStr → Bool
  | [], [] => false
  | [], _ :: _ => true
  | _ :: _, [] => false
  | a :: as, b :: bs => if a = b then jsStrLt as bs else decide (a < b)

/-- Non-strict companion of `jsStrLt` as a `Bool`. -/
def jsLeB (a b : JStr) : Bool := ! jsStrLt b a

/-- Non-strict JS string order as a relation (for sorting). -/
def jsLe (a b : JStr) : Prop := jsLeB a b = true

instance : DecidableRel jsLe := fun a b => inferInstanceAs (Decidable (jsLeB a b = true))

/-- Filter used on the sessions directory listing:
`file.startsWith('session-') && file.endsWith('.md')` (line 291). -/
def isSessionName (n : JStr) : Bool :=
  (chars "session-").isPrefixOf n && (chars ".md").isSuffixOf n

/-- Filter used on the daily directory listing:
`file.startsWith('activeContext-') && file.endsWith('.md')` (lines 213, 348). -/
def isDailyName (n : JStr) : Bool :=
  (chars "activeContext-").isPrefixOf n && (chars ".md").isSuffixOf n

/-- Needle of the in-progress check `content.includes('End Time\n(In
progress)')` (line 304). -/
def inProgressNeedle : JStr := chars "End Time\n(In progress)"

/-- Matched line head of the regex `/## End Time\n(.*)/` (line 324). -/
def endTimeHeaderLine : JStr := chars "## End Time\n"

/-- Content written by `createSessionFile` (lines 261-278).  The code calls
`this.getTimestamp()` separately for the title and the Start Time line, so
the two readings are distinct parameters. -/
def sessionFileContent (tsTitle tsStart : JStr) : JStr :=
  chars "# Development Session - " ++ tsTitle ++
  chars "\n\n## Start Time\n" ++ tsStart ++
  chars "\n\n## End Time\n(In progress)\n\n## Focus\n-\n\n## Notes\n-\n\n## Statistics\n- Time Spent: 0h 0m\n- Estimated Cost: $0\n"

/-- Embedding of `updateSessionEndTime` on a file's content (lines 320-333):
replace the first match of `/## End Time\n(.*)/` — the header line plus the
rest of the following line (`.` does not cross newlines, and the old line is
the captured group) — by the template `## End Time\n${this.getTimestamp()}`
processed by `getSubstitution` (timestamps never contain a dollar, but the
model keeps the processing for arbitrary `ts`). -/
def updateSessionEndTime (content ts : JStr) : JStr :=
  match findSub endTimeHeaderLine content with
  | none => content
  | some i =>
    let bodyStart := i + endTimeHeaderLine.length
    let line := (content.drop bodyStart).takeWhile (fun c => c != '\n')
    content.take i ++
      getSubstitution (endTimeHeaderLine ++ line) (content.take i)
        (content.drop (bodyStart + line.length)) [line]
        (endTimeHeaderLine ++ ts) ++
      content.drop (bodyStart + line.length)

/-- Content of the first directory entry named `n` (the `readFile` of the
chosen path; `readFile` returns the empty string on error, line 122). -/
def dirRead (dir : List (JStr × JStr)) (n : JStr) : JStr :=
  ((dir.find? (fun e => e.1 == n)).map Prod.snd).getD []

/-- Embedding of `getCurrentSessionFile` (lines 288-313): filter the session
files, sort the names (JS `sort()` then `reverse()`, i.e. descending), take
the first, and return it only if its content still includes the in-progress
needle.  Returns the bare file name; the code returns
`path.join(sessionsDir, name)`, a bijective decoration. -/
def getCurrentSessionFile (dir : List (JStr × JStr)) : Option JStr :=
  let sessionFiles := (dir.map Prod.fst).filter isSessionName
  match (List.insertionSort jsLe sessionFiles).reverse with
  | [] => none
  | top :: _ =>
    if containsSub inProgressNeedle (dirRead dir top) then some top else none

/-!
## Filesystem model

Flat association list from full paths to file contents.  `fsWrite` is
`fs.writeFile` (create or overwrite), `fsMove` is `fs.move` with
`overwrite: true`, `readdirFS dir` lists the names of the entries directly
inside `dir` (path `dir ++ "/" ++ name` with a slash-free nonempty name),
matching `fs.readdir` on the flat directories this repository uses.
`path.join(a, b)` for the simple relative names the code passes is
`a ++ "/" ++ b` (no normalization is ever triggered). -/
abbrev FS := List (JStr × JStr)

/-- Content stored at path `p`, if any (first matching entry). -/
def getFS : FS → JStr → Option JStr
  | [], _ => none
  | e :: rest, p => if e.1 = p then some e.2 else getFS rest p

/-- Write `v` at path `p`: overwrite the existing entry or append a new one. -/
def fsWrite : FS → JStr → JStr → FS
  | [], p, v => [(p, v)]
  | e :: rest, p, v => if e.1 = p then (p, v) :: rest else e :: fsWrite rest p v

/-- Delete every entry at path `p`. -/
def fsRemove (fs : FS) (p : JStr) : FS := fs.filter (fun e => ! (e.1 == p))

/-- Move the file at `src` to `dst`, overwriting `dst` (`fs.move` with
`overwrite: true`).  With a missing source the real call throws; in the model
the state is returned unchanged (the branch is unreachable in the flows
modelled here, where sources come from a directory listing of the same
state). -/
def fsMove (fs : FS) (src dst : JStr) : FS :=
  match getFS fs src with
  | none => fs
  | some c => fsWrite (fsRemove fs src) dst c

/-- Existence check (`fs.pathExists`). -/
def fsExists (fs : FS) (p : JStr) : Bool := (getFS fs p).isSome

/-- Embedding of `readFile` (lines 117-124): contents, or the empty string on
error. -/
def readFileFS (fs : FS) (p : JStr) : JStr := (getFS fs p).getD []

/-- Path join for the base-relative names the code uses. -/
def pjoin (a b : JStr) : JStr := a ++ '/' :: b

/-- Names of the entries directly inside directory `dir` (`fs.readdir`). -/
def readdirFS (fs : FS) (dir : JStr) : List JStr :=
  fs.filterMap (fun e =>
    let rest := e.1.drop (dir.length + 1)
    if (dir ++ ['/']).isPrefixOf e.1 && !rest.isEmpty && !(rest.contains '/')
    then some rest else none)

/-!
## Memory bank directory layout

Paths set up by the constructors of `EnhancedMemoryBank` (lines 56-69) and
`MemoryBank` (lines 25-40), with the default directory names. -/

/-- Daily files directory `<base>/daily`. -/
def dailyDirPath (base : JStr) : JStr := pjoin base (chars "daily")

/-- Session files directory `<base>/sessions`. -/
def sessionsDirPath (base : JStr) : JStr := pjoin base (chars "sessions")

/-- Archive directory `<base>/archive`. -/
def archiveDirPath (base : JStr) : JStr := pjoin base (chars "archive")

/-- Marker file `<base>/.last_update`. -/
def lastUpdatePath (base : JStr) : JStr := pjoin base (chars ".last_update")

/-- Master file `<base>/productContext.md`. -/
def productContextPath (base : JStr) : JStr := pjoin base (chars "productContext.md")

/-- Master file `<base>/activeContext.md`. -/
def activeContextPath (base : JStr) : JStr := pjoin base (chars "activeContext.md")

/-- Master file `<base>/systemPatterns.md`. -/
def systemPatternsPath (base : JStr) : JStr := pjoin base (chars "systemPatterns.md")

/-- Master file `<base>/decisionLog.md`. -/
def decisionLogPath (base : JStr) : JStr := pjoin base (chars "decisionLog.md")

/-- Master file `<base>/progress.md`. -/
def progressPath (base : JStr) : JStr := pjoin base (chars "progress.md")

/-!
## Archiver

Embedding of `archiveOldFiles` (lines 339-366).  The cutoff date string
`getDateString(now - archiveThresholdDays * 24h)` is an input. -/

/-- Date string the code extracts from a daily file name:
`file.replace('activeContext-', '').replace('.md', '')` (line 352), each
`replace` removing the first occurrence. -/
def dateStrOf (file : JStr) : JStr :=
  jsReplace (chars ".md") [] (jsReplace (chars "activeContext-") [] file)

/-- Per-file decision of the archive loop (lines 348-353): daily names only,
moved iff the embedded date string sorts strictly before the cutoff. -/
def shouldArchive (file cutoff : JStr) : Bool :=
  isDailyName file && jsStrLt (dateStrOf file) cutoff

/-- Embedding of `archiveOldFiles`: iterate over the daily directory listing
(a snapshot taken before any move) and move each old file to
`<base>/archive/<file>` — note: the flat archive directory, no year-month
subdirectory appears anywhere in the code (line 355:
`path.join(this.archiveDir, file)`). -/
def archiveOldFilesFS (fs : FS) (base cutoff : JStr) : FS :=
  (readdirFS fs (dailyDirPath base)).foldl
    (fun acc file =>
      if shouldArchive file cutoff
      then fsMove acc (pjoin (dailyDirPath base) file) (pjoin (archiveDirPath base) file)
      else acc)
    fs

/-!
## Daily file manager

Embedding of `createDailyFile` (lines 174-204), `getLatestDailyFile`
(lines 210-227) and `loadContext` (lines 372-400). -/

/-- Daily file name `activeContext-<YYYY-MM-DD>.md`. -/
def dailyFileName (dateStr : JStr) : JStr :=
  chars "activeContext-" ++ dateStr ++ chars ".md"

/-- Template written by `createDailyFile` (lines 179-199). -/
def dailyTemplate (dateStr : JStr) : JStr :=
  chars "# Active Context - " ++ dateStr ++
  chars "\n\n## Current Focus\n-\n\n## Recent Changes\n-\n\n## Open Questions/Issues\n-\n\n## Statistics\n- Time Spent: 0h 0m\n- Estimated Cost: $0\n- Files Created: 0\n- Files Modified: 0\n- Files Deleted: 0\n- Lines of Code Added: 0\n- Lines of Code Removed: 0\n- Total Lines of Code: 0\n"

/-- Embedding of `createDailyFile`: write the template unless the file for
that date already exists. -/
def createDailyFileFS (fs : FS) (base dateStr : JStr) : FS :=
  let p := pjoin (dailyDirPath base) (dailyFileName dateStr)
  if fsExists fs p then fs else fsWrite fs p (dailyTemplate dateStr)

/-- Embedding of `getLatestDailyFile`: filter daily names, sort descending,
return the path of the first. -/
def getLatestDailyFileFS (fs : FS) (base : JStr) : Option JStr :=
  let dailyFiles := (readdirFS fs (dailyDirPath base)).filter isDailyName
  match (List.insertionSort jsLe dailyFiles).reverse with
  | [] => none
  | top :: _ => some (pjoin (dailyDirPath base) top)

/-- Heading of the Current Focus section. -/
def currentFocusHdr : JStr := chars "## Current Focus"

/-- Heading of the Open Questions/Issues section. -/
def openQuestionsHdr : JStr := chars "## Open Questions/Issues"

/-- Embedding of `loadContext`: carry the Current Focus and Open
Questions/Issues sections of the latest daily file into a (possibly freshly
created) file for today; reports failure without writing when no daily file
exists. -/
def loadContextFS (fs : FS) (base dateStr : JStr) : FS × Bool :=
  match getLatestDailyFileFS fs base with
  | none => (fs, false)
  | some latestPath =>
    let fs1 := createDailyFileFS fs base dateStr
    let todayPath := pjoin (dailyDirPath base) (dailyFileName dateStr)
    let latestContent := readFileFS fs1 latestPath
    let todayContent := readFileFS fs1 todayPath
    let u1 := updateSection todayContent currentFocusHdr
      (extractSection latestContent currentFocusHdr)
    let u2 := updateSection u1 openQuestionsHdr
      (extractSection latestContent openQuestionsHdr)
    (fsWrite fs1 todayPath u2, true)

/-!
## Session manager, filesystem level

Embedding of `createSessionFile`, `getCurrentSessionFile`,
`updateSessionEndTime` acting on the filesystem, plus the three-way session
branch of `MemoryBank.handleUMBCommand` (`src/memory-bank.ts`,
lines 324-343). -/

/-- Session file name `session-<iso-with-dashes>.md`, where the timestamp is
`new Date().toISOString().replace(/[:.]/g, '-')` (line 258) — an input. -/
def sessionFileName (isoDashed : JStr) : JStr :=
  chars "session-" ++ isoDashed ++ chars ".md"

/-- Embedding of `createSessionFile`: write a fresh in-progress session file
and return its path. -/
def createSessionFileFS (fs : FS) (base isoDashed tsTitle tsStart : JStr) : FS × JStr :=
  let p := pjoin (sessionsDirPath base) (sessionFileName isoDashed)
  (fsWrite fs p (sessionFileContent tsTitle tsStart), p)

/-- Embedding of `getCurrentSessionFile` on the filesystem: apply the
directory-listing-level function to the sessions directory (the code reads
only the selected top file; reading every listed file first returns the same
contents since reads do not modify the state). -/
def getCurrentSessionFileFS (fs : FS) (base : JStr) : Option JStr :=
  (getCurrentSessionFile ((readdirFS fs (sessionsDirPath base)).map
    (fun n => (n, readFileFS fs (pjoin (sessionsDirPath base) n))))).map
    (pjoin (sessionsDirPath base))

/-- Embedding of `updateSessionEndTime` on the filesystem: read, rewrite the
End Time line, write back. -/
def updateSessionEndTimeFS (fs : FS) (p ts : JStr) : FS :=
  fsWrite fs p (updateSessionEndTime (readFileFS fs p) ts)

/-- Wall-clock inputs of one `handleUMBCommand` invocation. -/
structure UMBEnv where
  elapsedExceeded : Bool
  tsNow : JStr
  isoDashed : JStr
  dateStr : JStr
  isoNow : JStr
  cutoffDateStr : JStr

/-- Embedding of `shouldStartNewSession` (lines 233-251): `true` when the
`.last_update` marker is missing, otherwise determined by whether the elapsed
wall-clock time exceeds the session timeout — a time comparison carried as
the environment input `elapsedExceeded` (the function performs no writes). -/
def shouldStartNewSessionFS (fs : FS) (base : JStr) (env : UMBEnv) : Bool :=
  if fsExists fs (lastUpdatePath base) then env.elapsedExceeded else true

/-- Embedding of the session branch of `handleUMBCommand`
(`src/memory-bank.ts`, lines 324-343): start a new session (after loading
prior context) when `shouldStartNewSession` fires; otherwise refresh the end
time of the current session if there is one; otherwise create a session. -/
def sessionBranchFS (fs : FS) (base : JStr) (env : UMBEnv) : FS :=
  let startNew := shouldStartNewSessionFS fs base env
  let current := getCurrentSessionFileFS fs base
  if startNew then
    (createSessionFileFS (loadContextFS fs base env.dateStr).1 base
      env.isoDashed env.tsNow env.tsNow).1
  else
    match current with
    | some p => updateSessionEndTimeFS fs p env.tsNow
    | none => (createSessionFileFS fs base env.isoDashed env.tsNow env.tsNow).1

/-- Number of session files in the sessions directory whose end-time field is
the in-progress sentinel. -/
def countInProgressFS (fs : FS) (base : JStr) : Nat :=
  (((readdirFS fs (sessionsDirPath base)).filter isSessionName).filter
    (fun n => containsSub inProgressNeedle
      (readFileFS fs (pjoin (sessionsDirPath base) n)))).length

/-!
## Memory bank facade

Embedding of `MemoryBank.updateProductContext` (lines 175-229),
`updateActiveContext` (lines 236-284), `updateDailyActiveContext`
(`enhanced-memory-bank.ts`, lines 486-527) and `handleUMBCommand`
(`memory-bank.ts`, lines 291-391). -/

/-- Update object for `updateProductContext`. -/
structure PCUpdate where
  projectOverview : Option JStr
  goalsAndObjectives : Option JStr
  coreFeatures : Option JStr
  architectureOverview : Option JStr

/-- Update object for `updateActiveContext`. -/
structure ACUpdate where
  currentFocus : Option JStr
  recentChanges : Option JStr
  openQuestions : Option JStr

/-- Update object for the `systemPatterns` field of `handleUMBCommand`
(accepted by the signature, never read by the body). -/
structure SPUpdate where
  architecturalPatterns : Option JStr
  designPatterns : Option JStr
  technicalDecisions : Option JStr

/-- Decision record field of `handleUMBCommand` (accepted, never read). -/
structure DecisionUpdate where
  title : JStr
  rationale : JStr
  implications : JStr
  status : JStr

/-- Progress field of `handleUMBCommand` (accepted, never read). -/
structure ProgressUpdate where
  currentTasks : Option (List JStr)
  completedTasks : Option (List JStr)
  upcomingTasks : Option (List JStr)
  milestones : Option (List (JStr × Option JStr))

/-- The `updates` argument of `handleUMBCommand`. -/
structure UMBUpdates where
  productContext : Option PCUpdate
  activeContext : Option ACUpdate
  systemPatterns : Option SPUpdate
  decision : Option DecisionUpdate
  progress : Option ProgressUpdate

/-- Result of `handleUMBCommand` (the human-readable `message` string is not
modelled). -/
structure UMBResult where
  fs : FS
  success : Bool
  updatedFiles : List JStr

/-- One conditional section update `if (update.x) { updateSection(...) }`:
JS truthiness makes both a missing field and the empty string skip the
update. -/
def applySection (content hdr : JStr) (v : Option JStr) : JStr :=
  match v with
  | some s => if s.isEmpty then content else updateSection content hdr s
  | none => content

/-- Footnote block pattern of `updateProductContext`. -/
def footnotesPat : JStr := chars "---\nFootnotes:\n"

/-- The footnote rewrite of `updateProductContext` (lines 218-222): the regex
`---\nFootnotes:\n([\s\S]*?)$` matches from the leftmost occurrence of the
block marker to the end of the string (the tail being the captured group),
and the whole match is replaced by the timestamped template processed by
`getSubstitution` (nothing follows the match, so `after` is empty). -/
def pcReplaceFootnote (content ts : JStr) : JStr :=
  match findSub footnotesPat content with
  | none => content
  | some i =>
    let captured := content.drop (i + footnotesPat.length)
    content.take i ++
      getSubstitution (footnotesPat ++ captured) (content.take i) [] [captured]
        (footnotesPat ++ chars "[" ++ ts ++ chars "] - Updated product context\n")

/-- Embedding of `updateProductContext`: up to four conditional section
updates on `productContext.md`, then the footnote rewrite. -/
def updateProductContextFS (fs : FS) (base ts : JStr) (u : PCUpdate) : FS × Bool :=
  let content := readFileFS fs (productContextPath base)
  let c1 := applySection content (chars "## Project Overview") u.projectOverview
  let c2 := applySection c1 (chars "## Goals and Objectives") u.goalsAndObjectives
  let c3 := applySection c2 (chars "## Core Features") u.coreFeatures
  let c4 := applySection c3 (chars "## Architecture Overview") u.architectureOverview
  (fsWrite fs (productContextPath base) (pcReplaceFootnote c4 ts), true)

/-- The Recent Changes prepend (lines 258-264 of `memory-bank.ts` and 506-512
of `enhanced-memory-bank.ts`): insert a timestamped entry right under the
heading line (first occurrence). -/
def prependRecentChange (content ts rc : JStr) : JStr :=
  jsReplace (chars "## Recent Changes\n")
    (chars "## Recent Changes\n[" ++ ts ++ chars "] - " ++ rc ++ chars "\n") content

/-- The three conditional transforms shared by the daily and master active
context updates. -/
def applyACTransforms (content ts : JStr) (u : ACUpdate) : JStr :=
  let c1 := applySection content currentFocusHdr u.currentFocus
  let c2 := match u.recentChanges with
    | some rc => if rc.isEmpty then c1 else prependRecentChange c1 ts rc
    | none => c1
  applySection c2 openQuestionsHdr u.openQuestions

/-- Embedding of `updateDailyActiveContext`: ensure today's daily file exists,
then apply the transforms to it. -/
def updateDailyActiveContextFS (fs : FS) (base dateStr ts : JStr) (u : ACUpdate) : FS × Bool :=
  let fs1 := createDailyFileFS fs base dateStr
  let todayPath := pjoin (dailyDirPath base) (dailyFileName dateStr)
  (fsWrite fs1 todayPath (applyACTransforms (readFileFS fs1 todayPath) ts u), true)

/-- Embedding of `updateActiveContext`: daily file first, then the master
`activeContext.md`, then refresh `.last_update`. -/
def updateActiveContextFS (fs : FS) (base : JStr) (env : UMBEnv) (u : ACUpdate) : FS × Bool :=
  let fs1 := (updateDailyActiveContextFS fs base env.dateStr env.tsNow u).1
  let fs2 := fsWrite fs1 (activeContextPath base)
    (applyACTransforms (readFileFS fs1 (activeContextPath base)) env.tsNow u)
  (fsWrite fs2 (lastUpdatePath base) env.isoNow, true)

/-- Placeholder `aggregateDailyFiles` (lines 533-543): writes nothing. -/
def aggregateDailyFilesFS (fs : FS) : FS := fs

/-- Embedding of `handleUMBCommand` (`src/memory-bank.ts`, lines 291-391):
session branch, statistics (pure), the two optional document updates with
their `updatedFiles` bookkeeping, aggregation placeholder, archiving, and the
final `.last_update` refresh that only happens when at least one update was
applied.  The `systemPatterns`, `decision` and `progress` fields of `updates`
are accepted and ignored, exactly as in the code. -/
def handleUMBCommandFS (fs : FS) (base : JStr) (env : UMBEnv) (updates : UMBUpdates) :
    UMBResult :=
  let fs1 := sessionBranchFS fs base env
  let step2 : FS × List JStr := match updates.productContext with
    | some pc => ((updateProductContextFS fs1 base env.tsNow pc).1, [chars "productContext.md"])
    | none => (fs1, [])
  let step3 : FS × List JStr := match updates.activeContext with
    | some ac => ((updateActiveContextFS step2.1 base env ac).1,
        step2.2 ++ [chars "activeContext.md",
          chars "daily/" ++ dailyFileName env.dateStr])
    | none => step2
  let fs4 := aggregateDailyFilesFS step3.1
  let fs5 := archiveOldFilesFS fs4 base env.cutoffDateStr
  if step3.2.isEmpty then
    ⟨fs5, false, []⟩
  else
    ⟨fsWrite fs5 (lastUpdatePath base) env.isoNow, true, step3.2⟩

/-- Paths never written by `handleUMBCommand`: not inside the daily, sessions
or archive directories and none of the three files it rewrites directly. -/
def untouchedPath (base q : JStr) : Prop :=
  (dailyDirPath base ++ ['/']).isPrefixOf q = false ∧
  (sessionsDirPath base ++ ['/']).isPrefixOf q = false ∧
  (archiveDirPath base ++ ['/']).isPrefixOf q = false ∧
  q ≠ productContextPath base ∧ q ≠ activeContextPath base ∧ q ≠ lastUpdatePath base

/-!
## Lemmas about substring search
-/

/-- At the index returned by `findSub`, the pattern is indeed present. -/
theorem findSub_some_isPrefixOf (pat : JStr) :
    ∀ (s : JStr) (i : Nat), findSub pat s = some i →
      pat.isPrefixOf (s.drop i) = true := by
  intro s
  induction s with
  | nil =>
    intro i h
    unfold findSub at h
    split at h
    · rename_i hpat
      have hp : pat = [] := by simpa [List.isEmpty_iff] using hpat
      have hi : i = 0 := (Option.some.inj h).symm
      subst hi
      simp [hp, List.isPrefixOf]
    · exact absurd h (by simp)
  | cons c rest ih =>
    intro i h
    unfold findSub at h
    split at h
    · rename_i hpre
      have hi : i = 0 := (Option.some.inj h).symm
      subst hi
      simpa using hpre
    · rcases Option.map_eq_some'.mp h with ⟨i', hi', rfl⟩
      simpa using ih i' hi'

/-- Indices strictly before the one returned by `findSub` have no occurrence. -/
theorem findSub_some_min (pat : JStr) :
    ∀ (s : JStr) (i : Nat), findSub pat s = some i →
      ∀ j, j < i → pat.isPrefixOf (s.drop j) = false := by
  intro s
  induction s with
  | nil =>
    intro i h j hj
    unfold findSub at h
    split at h
    · have : i = 0 := by simp at h; omega
      omega
    · exact absurd h (by simp)
  | cons c rest ih =>
    intro i h j hj
    unfold findSub at h
    split at h
    · have : i = 0 := by simp at h; omega
      omega
    · rename_i hpre
      rcases Option.map_eq_some'.mp h with ⟨i', hi', rfl⟩
      match j with
      | 0 =>
        simp only [List.drop_zero]
        exact Bool.not_eq_true _ ▸ hpre
      | j' + 1 =>
        have := ih i' hi' j' (by omega)
        simpa using this

/-- When `findSub` fails there is no occurrence at any index. -/
theorem findSub_none (pat : JStr) :
    ∀ (s : JStr), findSub pat s = none →
      ∀ j, pat.isPrefixOf (s.drop j) = false := by
  intro s
  induction s with
  | nil =>
    intro h j
    unfold findSub at h
    split at h
    · exact absurd h (by simp)
    · have hpat : ¬ pat.isEmpty = true := by assumption
      match pat with
      | [] => simp [List.isEmpty] at hpat
      | p :: ps => simp [List.isPrefixOf]
  | cons c rest ih =>
    intro h j
    unfold findSub at h
    split at h
    · exact absurd h (by simp)
    · rename_i hpre
      have hrest : findSub pat rest = none := by
        cases hr : findSub pat rest with
        | none => rfl
        | some k => rw [hr] at h; simp at h
      match j with
      | 0 =>
        simp only [List.drop_zero]
        exact Bool.not_eq_true _ ▸ hpre
      | j' + 1 => simpa using ih hrest j'

/-- If the pattern occurs at some index, `findSub` succeeds. -/
theorem findSub_isSome_of_occurrence (pat : JStr) (s : JStr) (j : Nat)
    (h : pat.isPrefixOf (s.drop j) = true) : (findSub pat s).isSome = true := by
  cases hf : findSub pat s with
  | some i => simp
  | none => exact absurd h (by simp [findSub_none pat s hf j])

/-- Characterization: `findSub` returns exactly the minimal occurrence index. -/
theorem findSub_eq_some_of (pat s : JStr) (i : Nat)
    (hpre : pat.isPrefixOf (s.drop i) = true)
    (hmin : ∀ j, j < i → pat.isPrefixOf (s.drop j) = false) :
    findSub pat s = some i := by
  cases hf : findSub pat s with
  | none => exact absurd hpre (by simp [findSub_none pat s hf i])
  | some k =>
    rcases Nat.lt_trichotomy k i with hlt | heq | hgt
    · have := findSub_some_isPrefixOf pat s k hf
      rw [hmin k hlt] at this
      exact absurd this (by simp)
    · rw [heq]
    · have := findSub_some_min pat s k hf i hgt
      rw [hpre] at this
      exact absurd this (by simp)

/-- Occurrence of a nonempty pattern forces the index inside the string. -/
theorem lt_length_of_isPrefixOf_drop (pat s : JStr) (i : Nat)
    (hne : pat ≠ []) (h : pat.isPrefixOf (s.drop i) = true) : i < s.length := by
  by_contra hcon
  have hdrop : s.drop i = [] := List.drop_eq_nil_of_le (by omega)
  rw [hdrop] at h
  match pat with
  | [] => exact hne rfl
  | p :: ps => simp [List.isPrefixOf] at h

/-- Negative characterization as a constructor. -/
theorem findSub_eq_none_of (pat s : JStr)
    (h : ∀ j, pat.isPrefixOf (s.drop j) = false) : findSub pat s = none := by
  cases hf : findSub pat s with
  | none => rfl
  | some i =>
    have := findSub_some_isPrefixOf pat s i hf
    rw [h i] at this
    exact absurd this (by simp)

/-- A list is a prefix of itself followed by anything. -/
theorem isPrefixOf_append_self (p t : JStr) : p.isPrefixOf (p ++ t) = true :=
  List.isPrefixOf_iff_prefix.mpr (List.prefix_append p t)

/-- Whether `pat` is a prefix only depends on the first `pat.length`
characters. -/
theorem isPrefixOf_congr_take (pat : JStr) :
    ∀ (u v : JStr), u.take pat.length = v.take pat.length →
      pat.isPrefixOf u = pat.isPrefixOf v := by
  induction pat with
  | nil => intro u v _; simp [List.isPrefixOf]
  | cons p ps ih =>
    intro u v h
    match u, v with
    | [], [] => rfl
    | [], b :: vs => simp at h
    | a :: us, [] => simp at h
    | a :: us, b :: vs =>
      simp only [List.length_cons, List.take_succ_cons, List.cons.injEq] at h
      obtain ⟨rfl, h2⟩ := h
      simp [List.isPrefixOf, ih us vs h2]

/-- Occurrence tests below a common-prefix bound transfer between strings. -/
theorem prefix_drop_congr (pat s t : JStr) (m j : Nat)
    (hst : s.take m = t.take m) (hj : j + pat.length ≤ m) :
    pat.isPrefixOf (s.drop j) = pat.isPrefixOf (t.drop j) := by
  apply isPrefixOf_congr_take
  have hs : (s.drop j).take pat.length = ((s.take m).take (j + pat.length)).drop j := by
    rw [List.take_take, inf_of_le_left hj, ← List.take_drop]
  have ht : (t.drop j).take pat.length = ((t.take m).take (j + pat.length)).drop j := by
    rw [List.take_take, inf_of_le_left hj, ← List.take_drop]
  rw [hs, ht, hst]

/-- Appending one whitespace character does not change the JS trim. -/
theorem trimJs_append_ws (V : JStr) (c : Char) (hc : isJsWs c = true) :
    trimJs (V ++ [c]) = trimJs V := by
  unfold trimJs trimRightJs
  rw [List.reverse_append]
  simp [hc]

/-- Unfolded character-list form of the lookahead pattern. -/
theorem nlHH_eq : nlHH = '\n' :: '#' :: '#' :: ' ' :: [] := rfl

/-- If `"\n## "` occurs nowhere in `V`, it also has no occurrence in
`V ++ "\n" ++ R` starting inside `V ++ "\n"`, provided `R` is empty or itself
starts with `"\n## "` (no occurrence can straddle the seam). -/
theorem nlHH_no_early_occurrence (V R : JStr)
    (hV : ∀ j, nlHH.isPrefixOf (V.drop j) = false)
    (hR : R = [] ∨ nlHH.isPrefixOf R = true) :
    ∀ j, j ≤ V.length → nlHH.isPrefixOf ((V ++ '\n' :: R).drop j) = false := by
  intro j hj
  by_cases hcase : j + 4 ≤ V.length
  · have htk : (V ++ '\n' :: R).take V.length = V.take V.length := by
      rw [List.take_append_of_le_length (Nat.le_refl _)]
    rw [prefix_drop_congr nlHH (V ++ '\n' :: R) V V.length j htk (by rw [nlHH_eq]; simpa using hcase)]
    exact hV j
  · have hsplit : (V ++ '\n' :: R).drop j = V.drop j ++ '\n' :: R :=
      List.drop_append_of_le_length hj
    have hxlen : (V.drop j).length ≤ 3 := by rw [List.length_drop]; omega
    have hRshape : R = [] ∨ ∃ R0, R = '\n' :: R0 := by
      rcases hR with rfl | hRpre
      · exact Or.inl rfl
      · right
        rw [nlHH_eq] at hRpre
        cases R with
        | nil => simp [List.isPrefixOf] at hRpre
        | cons r0 rs =>
          refine ⟨rs, ?_⟩
          simp only [List.isPrefixOf, Bool.and_eq_true, beq_iff_eq] at hRpre
          rw [← hRpre.1]
    rw [hsplit]
    rcases hx : V.drop j with _ | ⟨a, _ | ⟨b, _ | ⟨c0, _ | ⟨d, x2⟩⟩⟩⟩
    · rcases hRshape with rfl | ⟨R0, rfl⟩
      · simp [nlHH_eq, List.isPrefixOf]
      · simp [nlHH_eq, List.isPrefixOf]
    · simp [nlHH_eq, List.isPrefixOf]
    · simp [nlHH_eq, List.isPrefixOf]
    · simp [nlHH_eq, List.isPrefixOf]
    · rw [hx] at hxlen
      simp at hxlen

/-- When the replacement template contains no dollar, `getSubstitution` is
the identity. -/
theorem getSubstitution_no_dollar (m b a : JStr) (caps : List JStr) :
    ∀ t : JStr, ('$' : Char) ∉ t → getSubstitution m b a caps t = t := by
  intro t
  induction t with
  | nil =>
    intro _
    rfl
  | cons x rest ih =>
    intro h
    have hx : ¬ x = '$' := fun hh => h (by rw [hh]; exact List.mem_cons_self _ _)
    have hr : ('$' : Char) ∉ rest := fun hh => h (List.mem_cons_of_mem _ hh)
    unfold getSubstitution
    rw [if_neg hx, ih hr]

/-- The replacement string of `updateSection` really undergoes the JS
dollar-escape processing: `$1` re-inserts the captured old section body
(with its trailing newline) and `$$` collapses to a single dollar, so the
extract-after-update round-trip genuinely fails for such `V` — the reason
for the dollar-freeness hypothesis of the amended claim C1. -/
theorem updateSection_dollar_escape :
    updateSection (chars "## A\nold\n") (chars "## A") (chars "$1")
      = chars "## A\nold\n\n" ∧
    extractSection
        (updateSection (chars "## A\nold\n") (chars "## A") (chars "$1"))
        (chars "## A")
      = chars "old" ∧
    updateSection (chars "## A\nold\n") (chars "## A") (chars "$$")
      = chars "## A\n$\n" ∧
    extractSection
        (updateSection (chars "## A\nold\n") (chars "## A") (chars "$$"))
        (chars "## A")
      = chars "$" := by
  refine ⟨by decide, by decide, by decide, by decide⟩

/-- Claim C1, amended: for every document `D`, heading `H` whose heading line
`H ++ "\n"` occurs in `D`, and new content `V`, provided no second-level
heading starts inside `V` (`"\n## "` does not occur in it) and neither `H`
nor `V` contains a dollar (so that the interpolated replacement template
`H\nV\n` is free of JS `$`-escapes and inserted literally), extracting
section `H` right after updating section `H` of `D` with `V` yields exactly
`trim V`.  Both restrictions are forced: `C1_counterexample` shows the
original claim fails when `V` contains a `"\n## "` heading introducer, and
`updateSection_dollar_escape` shows it fails for `V = "$1"` and `V = "$$"`
(a dollar in `H` would additionally be a metacharacter of the section
regex itself). -/
theorem C1_update_extract_roundtrip (D H V : JStr)
    (hFound : containsSub (H ++ ['\n']) D = true)
    (hV : containsSub nlHH V = false)
    (hHd : ('$' : Char) ∉ H) (hVd : ('$' : Char) ∉ V) :
    extractSection (updateSection D H V) H = trimJs V := by
  obtain ⟨i, hi⟩ : ∃ i, findSub (H ++ ['\n']) D = some i := by
    unfold containsSub at hFound
    exact Option.isSome_iff_exists.mp hFound
  have hpre : (H ++ ['\n']).isPrefixOf (D.drop i) = true := findSub_some_isPrefixOf _ _ _ hi
  obtain ⟨tail, htail⟩ : ∃ tail, D.drop i = (H ++ ['\n']) ++ tail := by
    obtain ⟨t, ht⟩ := List.isPrefixOf_iff_prefix.mp hpre
    exact ⟨t, ht.symm⟩
  have hilt : i < D.length := lt_length_of_isPrefixOf_drop _ _ _ (by simp) hpre
  have hitake : (D.take i).length = i := by rw [List.length_take]; omega
  have hD : D = D.take i ++ ((H ++ ['\n']) ++ tail) := by
    conv_lhs => rw [← List.take_append_drop i D]
    rw [htail]
  have hA : (D.take i ++ (H ++ ['\n'])).length = i + H.length + 1 := by
    simp [hitake]
    omega
  have hbody : D.drop (i + H.length + 1) = tail := by
    conv_lhs => rw [hD, ← List.append_assoc]
    rw [← hA, List.drop_left]
  have hT : ('$' : Char) ∉ H ++ '\n' :: (V ++ ['\n']) := by
    intro hmem
    simp only [List.mem_append, List.mem_cons, List.mem_singleton,
      List.not_mem_nil, or_false] at hmem
    rcases hmem with h1 | h1 | h1 | h1
    · exact hHd h1
    · exact absurd h1 (by decide)
    · exact hVd h1
    · exact absurd h1 (by decide)
  have hupd : updateSection D H V
      = D.take i ++ H ++ '\n' :: (V ++ '\n' :: tail.drop (sectionStop tail)) := by
    unfold updateSection
    rw [hi]
    simp only [hbody]
    rw [getSubstitution_no_dollar _ _ _ _ _ hT]
    simp [List.append_assoc]
  have hR : tail.drop (sectionStop tail) = [] ∨
      nlHH.isPrefixOf (tail.drop (sectionStop tail)) = true := by
    unfold sectionStop
    cases hb : findSub nlHH tail with
    | none => exact Or.inl (List.drop_length tail)
    | some j => exact Or.inr (findSub_some_isPrefixOf _ _ _ hb)
  set R : JStr := tail.drop (sectionStop tail) with hRdef
  set W : JStr := V ++ '\n' :: R with hWdef
  set Dnew : JStr := D.take i ++ H ++ '\n' :: W with hDnewdef
  have hDneweq : Dnew = (D.take i ++ (H ++ ['\n'])) ++ W := by
    simp [hDnewdef, List.append_assoc]
  have hDnewtake : Dnew.take (i + (H ++ ['\n']).length)
      = D.take i ++ (H ++ ['\n']) := by
    have hAlen : (D.take i ++ (H ++ ['\n'])).length = i + (H ++ ['\n']).length := by
      simp [hitake]
    rw [hDneweq, ← hAlen, List.take_left]
  have hDtake : D.take (i + (H ++ ['\n']).length) = D.take i ++ (H ++ ['\n']) := by
    have hAlen : (D.take i ++ (H ++ ['\n'])).length = i + (H ++ ['\n']).length := by
      simp [hitake]
    conv_lhs => rw [hD, ← List.append_assoc]
    rw [← hAlen, List.take_left]
  have hfind2 : findSub (H ++ ['\n']) Dnew = some i := by
    apply findSub_eq_some_of
    · have hdropi : Dnew.drop i = (H ++ ['\n']) ++ W := by
        rw [hDneweq, List.append_assoc,
          List.drop_append_of_le_length (Nat.le_of_eq hitake.symm),
          List.drop_eq_nil_of_le (Nat.le_of_eq hitake)]
        simp
      rw [hdropi]
      exact isPrefixOf_append_self _ _
    · intro j hj
      rw [prefix_drop_congr (H ++ ['\n']) Dnew D (i + (H ++ ['\n']).length) j
        (hDnewtake.trans hDtake.symm) (by omega)]
      exact findSub_some_min _ _ _ hi j hj
  have hbody2 : Dnew.drop (i + H.length + 1) = W := by
    rw [hDneweq, ← hA, List.drop_left]
  have hVnone : ∀ j, nlHH.isPrefixOf (V.drop j) = false := by
    apply findSub_none
    unfold containsSub at hV
    exact Option.not_isSome_iff_eq_none.mp (by simp [hV])
  rw [hupd]
  unfold extractSection
  rw [hfind2]
  simp only [hbody2]
  rcases hR with hRnil | hRpre
  · have hW : W = V ++ ['\n'] := by rw [hWdef, hRnil]
    have hnone : findSub nlHH W = none := by
      apply findSub_eq_none_of
      intro j
      by_cases hj : j ≤ V.length
      · exact nlHH_no_early_occurrence V R hVnone (Or.inl hRnil) j hj
      · have hWlen : W.length = V.length + 1 := by simp [hW]
        rw [List.drop_eq_nil_of_le (by omega)]
        simp [nlHH_eq, List.isPrefixOf]
    unfold sectionStop
    rw [hnone, List.take_length, hW]
    exact trimJs_append_ws V '\n' (by decide)
  · have hWsplit : W = (V ++ ['\n']) ++ R := by simp [hWdef, List.append_assoc]
    have hVnl : (V ++ ['\n']).length = V.length + 1 := by simp
    have hsome : findSub nlHH W = some (V.length + 1) := by
      apply findSub_eq_some_of
      · rw [hWsplit, ← hVnl, List.drop_left]
        exact hRpre
      · intro j hj
        exact nlHH_no_early_occurrence V R hVnone (Or.inr hRpre) j (by omega)
    unfold sectionStop
    rw [hsome, hWsplit, ← hVnl, List.take_left]
    exact trimJs_append_ws V '\n' (by decide)

/-- Claim C1 as literally stated is false: with the heading present in the
document, updating with a value `V` that itself contains a section heading
(`V = "x\n## B"`) and then extracting returns only `"x"`, not `trim V`. -/
theorem C1_counterexample :
    containsSub ((chars "## A") ++ ['\n']) (chars "## A\n-\n") = true ∧
    extractSection
        (updateSection (chars "## A\n-\n") (chars "## A") (chars "x\n## B"))
        (chars "## A")
      ≠ trimJs (chars "x\n## B") := by
  constructor
  · decide
  · decide

/-- Witness for `C1_update_extract_roundtrip` at a concrete document. -/
theorem C1_witness :
    containsSub ((chars "## Current Focus") ++ ['\n'])
        (chars "# Active Context\n\n## Current Focus\n- old\n\n## Recent Changes\n- r\n") = true ∧
    containsSub nlHH (chars "- new focus") = false ∧
    ('$' : Char) ∉ chars "## Current Focus" ∧
    ('$' : Char) ∉ chars "- new focus" ∧
    extractSection
        (updateSection (chars "# Active Context\n\n## Current Focus\n- old\n\n## Recent Changes\n- r\n")
          (chars "## Current Focus") (chars "- new focus"))
        (chars "## Current Focus")
      = trimJs (chars "- new focus") :=
  ⟨by decide, by decide, by decide, by decide,
    C1_update_extract_roundtrip _ _ _ (by decide) (by decide) (by decide) (by decide)⟩

/-- Claim C5: when the heading pattern is absent from the document (the
section regex only matches when `H ++ "\n"` occurs in `D`), `extractSection`
returns the empty string and `updateSection` returns the document unchanged
for every new content `V` — a silent no-op that never corrupts the document. -/
theorem C5_missing_heading_noop (D H : JStr)
    (habsent : containsSub (H ++ ['\n']) D = false) :
    extractSection D H = [] ∧ ∀ V : JStr, updateSection D H V = D := by
  have hnone : findSub (H ++ ['\n']) D = none := by
    unfold containsSub at habsent
    exact Option.not_isSome_iff_eq_none.mp (by simp [habsent])
  constructor
  · unfold extractSection
    rw [hnone]
  · intro V
    unfold updateSection
    rw [hnone]

/-- Witness for `C5_missing_heading_noop` on a concrete document lacking the
requested heading. -/
theorem C5_witness :
    containsSub ((chars "## Goals") ++ ['\n']) (chars "# Doc\n\n## Focus\n- x\n") = false ∧
    extractSection (chars "# Doc\n\n## Focus\n- x\n") (chars "## Goals") = [] ∧
    updateSection (chars "# Doc\n\n## Focus\n- x\n") (chars "## Goals") (chars "v")
      = chars "# Doc\n\n## Focus\n- x\n" := by
  refine ⟨by decide, ?_, ?_⟩
  · exact (C5_missing_heading_noop _ _ (by decide)).1
  · exact (C5_missing_heading_noop _ _ (by decide)).2 _

/-- Claim C8: for every non-negative elapsed-minute value `M`, the
`timeSpent` string computed by `trackStatistics` is
`"{M div 60}h {M mod 60}m"` with integer division and remainder by 60. -/
theorem C8_timeSpent_format (M : Nat) (rate : ℚ)
    (gd : Option (Nat × Nat × Nat)) (gl : Option Nat) :
    (trackStatistics (M : Int) rate gd gl).timeSpent
      = toString (M / 60) ++ "h " ++ toString (M % 60) ++ "m" := by
  have h60 : ((60 : Int)) = ((60 : Nat) : Int) := rfl
  have h1 : Int.fdiv (M : Int) 60 = ((M / 60 : Nat) : Int) := by
    rw [h60, ← Int.ofNat_fdiv]
  have h2 : Int.tmod (M : Int) 60 = ((M % 60 : Nat) : Int) := by
    rw [h60, ← Int.ofNat_tmod]
  have h3 : ∀ n : Nat, toString ((n : Nat) : Int) = toString n := by
    intro n
    simp [toString]
  unfold trackStatistics
  simp only [h1, h2, h3]

/-- Claim C9: whatever the elapsed time, rate and Git subprocess results, the
`Statistics` record returned by `trackStatistics` always has
`filesCreated = 0` and `filesDeleted = 0`; the code never assigns these two
fields from any input. -/
theorem C9_files_created_deleted_zero (m : Int) (rate : ℚ)
    (gd : Option (Nat × Nat × Nat)) (gl : Option Nat) :
    (trackStatistics m rate gd gl).filesCreated = 0 ∧
    (trackStatistics m rate gd gl).filesDeleted = 0 :=
  ⟨rfl, rfl⟩

/-!
## Lemmas about the JS string order and session selection
-/

/-- Strict JS string order is irreflexive. -/
theorem jsStrLt_irrefl (a : JStr) : jsStrLt a a = false := by
  induction a with
  | nil => rfl
  | cons c t ih => simp [jsStrLt, ih]

/-- Reflexivity of the non-strict order. -/
theorem jsLe_refl (a : JStr) : jsLe a a := by
  unfold jsLe jsLeB
  simp [jsStrLt_irrefl]

/-- Strict JS string order is transitive. -/
theorem jsStrLt_trans : ∀ a b c, jsStrLt a b = true → jsStrLt b c = true →
    jsStrLt a c = true := by
  intro a
  induction a with
  | nil =>
    intro b c h1 h2
    cases b with
    | nil => simp [jsStrLt] at h1
    | cons b0 bs =>
      cases c with
      | nil => simp [jsStrLt] at h2
      | cons c0 cs => rfl
  | cons a0 as ih =>
    intro b c h1 h2
    cases b with
    | nil => simp [jsStrLt] at h1
    | cons b0 bs =>
      cases c with
      | nil => simp [jsStrLt] at h2
      | cons c0 cs =>
        by_cases hab : a0 = b0
        · subst hab
          by_cases hbc : a0 = c0
          · subst hbc
            simp only [jsStrLt, if_pos rfl] at h1 h2 ⊢
            exact ih bs cs h1 h2
          · simpa [jsStrLt, hbc] using (by simpa [jsStrLt, hbc] using h2 : a0 < c0)
        · by_cases hbc : b0 = c0
          · subst hbc
            simpa [jsStrLt, hab] using (by simpa [jsStrLt, hab] using h1 : a0 < b0)
          · have h1' : a0 < b0 := by simpa [jsStrLt, hab] using h1
            have h2' : b0 < c0 := by simpa [jsStrLt, hbc] using h2
            have hac : a0 ≠ c0 := by
              intro hh
              subst hh
              exact absurd (lt_trans h1' h2') (lt_irrefl _)
            simp [jsStrLt, hac, lt_trans h1' h2']

/-- Totality (connexity) of the strict order on distinct strings. -/
theorem jsStrLt_connex : ∀ a b : JStr, a ≠ b →
    jsStrLt a b = true ∨ jsStrLt b a = true := by
  intro a
  induction a with
  | nil =>
    intro b h
    cases b with
    | nil => exact absurd rfl h
    | cons b0 bs => exact Or.inl rfl
  | cons a0 as ih =>
    intro b h
    cases b with
    | nil => exact Or.inr rfl
    | cons b0 bs =>
      by_cases hab : a0 = b0
      · subst hab
        have hne : as ≠ bs := fun hh => h (by rw [hh])
        rcases ih bs hne with h1 | h1
        · exact Or.inl (by simp [jsStrLt, h1])
        · exact Or.inr (by simp [jsStrLt, h1])
      · rcases lt_trichotomy a0 b0 with hlt | heq | hgt
        · exact Or.inl (by simp [jsStrLt, hab, hlt])
        · exact absurd heq hab
        · have hba : ¬ b0 = a0 := fun hh => hab hh.symm
          exact Or.inr (by simp [jsStrLt, hba, hgt])

/-- Asymmetry of the strict order. -/
theorem jsStrLt_asymm (a b : JStr) (h : jsStrLt a b = true) :
    jsStrLt b a = false := by
  cases hba : jsStrLt b a with
  | false => rfl
  | true =>
    have h1' := jsStrLt_trans a b a h hba
    rw [jsStrLt_irrefl] at h1'
    exact absurd h1' (by simp)

/-- Totality of the non-strict order. -/
theorem jsLe_total : ∀ a b : JStr, jsLe a b ∨ jsLe b a := by
  intro a b
  by_cases hab : a = b
  · subst hab
    exact Or.inl (jsLe_refl a)
  · unfold jsLe jsLeB
    rcases jsStrLt_connex a b hab with h | h
    · left
      rw [jsStrLt_asymm a b h]
      rfl
    · right
      rw [jsStrLt_asymm b a h]
      rfl

/-- Transitivity of the non-strict order. -/
theorem jsLe_trans : ∀ a b c : JStr, jsLe a b → jsLe b c → jsLe a c := by
  intro a b c h1 h2
  unfold jsLe jsLeB at h1 h2 ⊢
  by_contra h3
  have hca : jsStrLt c a = true := by
    cases hx : jsStrLt c a with
    | true => rfl
    | false =>
      rw [hx] at h3
      simp at h3
  have hba : jsStrLt b a = false := by simpa using h1
  have hcb : jsStrLt c b = false := by simpa using h2
  by_cases hcbeq : c = b
  · subst hcbeq
    rw [hca] at hba
    exact absurd hba (by simp)
  · rcases jsStrLt_connex b c (fun hh => hcbeq hh.symm) with hbc | hcb'
    · have := jsStrLt_trans b c a hbc hca
      rw [this] at hba
      exact absurd hba (by simp)
    · rw [hcb'] at hcb
      exact absurd hcb (by simp)

/-- The head of the descending sort of a list is a member and an upper bound
(this is exactly how `files.sort().reverse()[0]` selects the
lexicographically latest name). -/
theorem sortDesc_head_max (l : List JStr) (top : JStr) (rest : List JStr)
    (h : (List.insertionSort jsLe l).reverse = top :: rest) :
    top ∈ l ∧ ∀ x ∈ l, jsLe x top := by
  haveI : IsTotal JStr jsLe := ⟨jsLe_total⟩
  haveI : IsTrans JStr jsLe := ⟨jsLe_trans⟩
  have hsorted : List.Sorted jsLe (List.insertionSort jsLe l) :=
    List.sorted_insertionSort jsLe l
  have hperm : (List.insertionSort jsLe l).Perm l := List.perm_insertionSort jsLe l
  have hmemrev : ∀ x, x ∈ l ↔ x ∈ top :: rest := by
    intro x
    rw [← h, List.mem_reverse]
    exact (hperm.mem_iff).symm
  constructor
  · exact (hmemrev top).mpr (List.mem_cons_self _ _)
  · intro x hx
    have hrev : List.Pairwise (fun a b => jsLe b a) (top :: rest) := by
      rw [← h]
      exact (List.pairwise_reverse).mpr (by simpa using hsorted)
    cases (hmemrev x).mp hx with
    | head => exact jsLe_refl _
    | tail _ hx2 => exact (List.pairwise_cons.mp hrev).1 x hx2

/-- First-entry lookup finds the unique entry with a given name. -/
theorem dirRead_eq (dir : List (JStr × JStr)) (nm ct : JStr)
    (hnd : (dir.map Prod.fst).Nodup) (hmem : (nm, ct) ∈ dir) :
    dirRead dir nm = ct := by
  induction dir with
  | nil => simp at hmem
  | cons e tl ih =>
    rw [List.map_cons] at hnd
    have hnotin := (List.nodup_cons.mp hnd).1
    have hnd' := (List.nodup_cons.mp hnd).2
    rcases List.mem_cons.mp hmem with heq | hmem'
    · rw [← heq]
      simp [dirRead]
    · have hfst : (e.1 == nm) = false := by
        simp only [beq_eq_false_iff_ne, ne_eq]
        intro hh
        apply hnotin
        rw [hh]
        exact List.mem_map.mpr ⟨(nm, ct), hmem', rfl⟩
      unfold dirRead
      rw [show List.find? (fun e : JStr × JStr => e.1 == nm) (e :: tl)
          = List.find? (fun e : JStr × JStr => e.1 == nm) tl from by
        simp [List.find?_cons, hfst]]
      exact ih hnd' hmem'

/-- Claim C6: `getCurrentSessionFile` considers only the lexicographically
latest session file `nm`: it returns `nm` when that file's content still
carries the in-progress sentinel and `none` when it does not, regardless of
the contents (in particular in-progress markers) of all earlier session
files. -/
theorem C6_latest_only (dir : List (JStr × JStr)) (nm ct : JStr)
    (hnd : (dir.map Prod.fst).Nodup)
    (hmem : (nm, ct) ∈ dir)
    (hsess : isSessionName nm = true)
    (hdom : ∀ p ∈ dir, isSessionName p.1 = true → p.1 ≠ nm → jsStrLt p.1 nm = true) :
    getCurrentSessionFile dir
      = if containsSub inProgressNeedle ct then some nm else none := by
  have hnmmem : nm ∈ (dir.map Prod.fst).filter isSessionName := by
    rw [List.mem_filter]
    exact ⟨List.mem_map.mpr ⟨(nm, ct), hmem, rfl⟩, hsess⟩
  cases hrev : (List.insertionSort jsLe ((dir.map Prod.fst).filter isSessionName)).reverse with
  | nil =>
    have hsortnil : List.insertionSort jsLe ((dir.map Prod.fst).filter isSessionName) = [] := by
      rcases hs : List.insertionSort jsLe ((dir.map Prod.fst).filter isSessionName) with _ | ⟨x, xs⟩
      · rfl
      · rw [hs] at hrev
        simp at hrev
    have hperm := List.perm_insertionSort jsLe ((dir.map Prod.fst).filter isSessionName)
    rw [hsortnil] at hperm
    have hniln := List.Perm.nil_eq hperm
    rw [← hniln] at hnmmem
    simp at hnmmem
  | cons top rest =>
    obtain ⟨htopmem, hub⟩ := sortDesc_head_max _ _ _ hrev
    have htopnm : top = nm := by
      by_cases h : top = nm
      · exact h
      · obtain ⟨htopfst, htopsess⟩ := List.mem_filter.mp htopmem
        obtain ⟨p, hp, hpfst⟩ := List.mem_map.mp htopfst
        have hlt := hdom p hp (by rw [hpfst]; exact htopsess) (by rw [hpfst]; exact h)
        have hle := hub nm hnmmem
        unfold jsLe jsLeB at hle
        rw [hpfst] at hlt
        rw [hlt] at hle
        simp at hle
    simp only [getCurrentSessionFile]
    rw [hrev, htopnm]
    simp only [dirRead_eq dir nm ct hnd hmem]

/-- Witness for `C6_latest_only`: three session files, the two older ones
still marked in progress, the latest closed — the function returns `none`. -/
theorem C6_witness :
    getCurrentSessionFile
      [(chars "session-2025-01-01T00-00-00-000Z.md", chars "## End Time\n(In progress)\n"),
       (chars "session-2025-01-02T00-00-00-000Z.md", chars "## End Time\n(In progress)\n"),
       (chars "session-2025-01-03T00-00-00-000Z.md", chars "## End Time\n2025-01-03 12:00:00\n")]
      = none := by
  have h := C6_latest_only
    [(chars "session-2025-01-01T00-00-00-000Z.md", chars "## End Time\n(In progress)\n"),
     (chars "session-2025-01-02T00-00-00-000Z.md", chars "## End Time\n(In progress)\n"),
     (chars "session-2025-01-03T00-00-00-000Z.md", chars "## End Time\n2025-01-03 12:00:00\n")]
    (chars "session-2025-01-03T00-00-00-000Z.md")
    (chars "## End Time\n2025-01-03 12:00:00\n")
    (by decide) (by decide) (by decide) (by decide)
  rw [h]
  decide

/-- Claim C3 is contradicted by the code: starting from the file content
`createSessionFile` writes, a successful `updateSessionEndTime` replaces the
whole `"(In progress)"` line by the concrete timestamp, after which the
in-progress needle no longer occurs and `getCurrentSessionFile` on the
sessions directory returns `none` — the claim says it would still return the
file's path. -/
theorem C3_update_end_time_closes :
    containsSub inProgressNeedle
      (sessionFileContent (chars "2025-01-01 10:00:00") (chars "2025-01-01 10:00:00")) = true ∧
    updateSessionEndTime
        (sessionFileContent (chars "2025-01-01 10:00:00") (chars "2025-01-01 10:00:00"))
        (chars "2025-01-01 11:30:00")
      = chars "# Development Session - 2025-01-01 10:00:00\n\n## Start Time\n2025-01-01 10:00:00\n\n## End Time\n2025-01-01 11:30:00\n\n## Focus\n-\n\n## Notes\n-\n\n## Statistics\n- Time Spent: 0h 0m\n- Estimated Cost: $0\n" ∧
    getCurrentSessionFile
      [(chars "session-2025-01-01T10-00-00-000Z.md",
        updateSessionEndTime
          (sessionFileContent (chars "2025-01-01 10:00:00") (chars "2025-01-01 10:00:00"))
          (chars "2025-01-01 11:30:00"))]
      = none := by
  refine ⟨by decide, by decide, by decide⟩

/-!
## Frame lemmas for the filesystem model
-/

/-- Evaluation of `getFS` on a cons cell. -/
theorem getFS_cons (e : JStr × JStr) (rest : FS) (q : JStr) :
    getFS (e :: rest) q = if e.1 = q then some e.2 else getFS rest q := rfl

/-- Writing one path leaves every other path unchanged. -/
theorem getFS_fsWrite_ne (fs : FS) (p v q : JStr) (h : q ≠ p) :
    getFS (fsWrite fs p v) q = getFS fs q := by
  induction fs with
  | nil =>
    show getFS [(p, v)] q = getFS [] q
    rw [getFS_cons]
    rw [if_neg (fun hh : p = q => h hh.symm)]
  | cons e rest ih =>
    show getFS (if e.1 = p then (p, v) :: rest else e :: fsWrite rest p v) q = _
    by_cases he : e.1 = p
    · rw [if_pos he, getFS_cons, getFS_cons,
        if_neg (fun hh : p = q => h hh.symm), if_neg (by rw [he]; exact fun hh => h hh.symm)]
    · rw [if_neg he, getFS_cons, getFS_cons]
      by_cases heq : e.1 = q
      · rw [if_pos heq, if_pos heq]
      · rw [if_neg heq, if_neg heq]
        exact ih

/-- Removing one path leaves every other path unchanged. -/
theorem getFS_fsRemove_ne (fs : FS) (p q : JStr) (h : q ≠ p) :
    getFS (fsRemove fs p) q = getFS fs q := by
  induction fs with
  | nil => rfl
  | cons e rest ih =>
    unfold fsRemove at ih ⊢
    rw [List.filter_cons]
    by_cases he : e.1 = p
    · rw [if_neg (by simp [he])]
      rw [getFS_cons, if_neg (by rw [he]; exact fun hh => h hh.symm)]
      exact ih
    · rw [if_pos (by simp [he]), getFS_cons, getFS_cons]
      by_cases heq : e.1 = q
      · rw [if_pos heq, if_pos heq]
      · rw [if_neg heq, if_neg heq]
        exact ih

/-- A move between two other paths leaves a path unchanged. -/
theorem getFS_fsMove_ne (fs : FS) (src dst q : JStr) (hs : q ≠ src) (hd : q ≠ dst) :
    getFS (fsMove fs src dst) q = getFS fs q := by
  unfold fsMove
  cases hg : getFS fs src with
  | none => rfl
  | some c => rw [getFS_fsWrite_ne _ _ _ _ hd, getFS_fsRemove_ne _ _ _ hs]

/-- Path join as appending to the slash-terminated directory. -/
theorem pjoin_eq_append (a b : JStr) : pjoin a b = (a ++ ['/']) ++ b := by
  simp [pjoin]

/-- A path whose name is joined under `a` always has `a ++ "/"` as prefix. -/
theorem ne_pjoin_of_unprefixed (a q n : JStr)
    (h : (a ++ ['/']).isPrefixOf q = false) : q ≠ pjoin a n := by
  intro hh
  rw [hh, pjoin_eq_append, isPrefixOf_append_self] at h
  exact absurd h (by simp)

/-- Prefix tests cancel a common left factor. -/
theorem prefix_cancel (a x y : JStr) : (a ++ x).isPrefixOf (a ++ y) = x.isPrefixOf y := by
  induction a with
  | nil => rfl
  | cons c t ih => simp [List.isPrefixOf, ih]

/-- Appending distinct suffixes to the same list yields distinct lists. -/
theorem append_left_ne (a x y : JStr) (h : x ≠ y) : a ++ x ≠ a ++ y :=
  fun hh => h (List.append_cancel_left hh)

/-- The three master files whose preservation claim C10 asserts are untouched
paths: none is inside `daily/`, `sessions/` or `archive/`, and none equals the
three paths the command writes. -/
theorem untouchedPath_systemPatterns (base : JStr) :
    untouchedPath base (systemPatternsPath base) := by
  unfold untouchedPath dailyDirPath sessionsDirPath archiveDirPath
    systemPatternsPath productContextPath activeContextPath lastUpdatePath
  simp only [pjoin_eq_append, List.append_assoc]
  refine ⟨?_, ?_, ?_, ?_, ?_, ?_⟩
  · rw [prefix_cancel]
    decide
  · rw [prefix_cancel]
    decide
  · rw [prefix_cancel]
    decide
  · exact append_left_ne _ _ _ (by decide)
  · exact append_left_ne _ _ _ (by decide)
  · exact append_left_ne _ _ _ (by decide)

/-- Untouched-path fact for `decisionLog.md`. -/
theorem untouchedPath_decisionLog (base : JStr) :
    untouchedPath base (decisionLogPath base) := by
  unfold untouchedPath dailyDirPath sessionsDirPath archiveDirPath
    decisionLogPath productContextPath activeContextPath lastUpdatePath
  simp only [pjoin_eq_append, List.append_assoc]
  refine ⟨?_, ?_, ?_, ?_, ?_, ?_⟩
  · rw [prefix_cancel]
    decide
  · rw [prefix_cancel]
    decide
  · rw [prefix_cancel]
    decide
  · exact append_left_ne _ _ _ (by decide)
  · exact append_left_ne _ _ _ (by decide)
  · exact append_left_ne _ _ _ (by decide)

/-- Untouched-path fact for `progress.md`. -/
theorem untouchedPath_progress (base : JStr) :
    untouchedPath base (progressPath base) := by
  unfold untouchedPath dailyDirPath sessionsDirPath archiveDirPath
    progressPath productContextPath activeContextPath lastUpdatePath
  simp only [pjoin_eq_append, List.append_assoc]
  refine ⟨?_, ?_, ?_, ?_, ?_, ?_⟩
  · rw [prefix_cancel]
    decide
  · rw [prefix_cancel]
    decide
  · rw [prefix_cancel]
    decide
  · exact append_left_ne _ _ _ (by decide)
  · exact append_left_ne _ _ _ (by decide)
  · exact append_left_ne _ _ _ (by decide)

/-- Frame for `createDailyFileFS`: it writes only inside `daily/`. -/
theorem getFS_createDailyFileFS (fs : FS) (base d q : JStr)
    (h : (dailyDirPath base ++ ['/']).isPrefixOf q = false) :
    getFS (createDailyFileFS fs base d) q = getFS fs q := by
  simp only [createDailyFileFS]
  split
  · rfl
  · exact getFS_fsWrite_ne _ _ _ _ (ne_pjoin_of_unprefixed _ _ _ h)

/-- Frame for `loadContextFS`: it writes only inside `daily/`. -/
theorem getFS_loadContextFS (fs : FS) (base d q : JStr)
    (h : (dailyDirPath base ++ ['/']).isPrefixOf q = false) :
    getFS (loadContextFS fs base d).1 q = getFS fs q := by
  unfold loadContextFS
  cases hg : getLatestDailyFileFS fs base with
  | none => rfl
  | some latest =>
    simp only []
    rw [getFS_fsWrite_ne _ _ _ _ (ne_pjoin_of_unprefixed _ _ _ h),
      getFS_createDailyFileFS _ _ _ _ h]

/-- Frame for `createSessionFileFS`: it writes only inside `sessions/`. -/
theorem getFS_createSessionFileFS (fs : FS) (base iso t1 t2 q : JStr)
    (h : (sessionsDirPath base ++ ['/']).isPrefixOf q = false) :
    getFS (createSessionFileFS fs base iso t1 t2).1 q = getFS fs q := by
  unfold createSessionFileFS
  exact getFS_fsWrite_ne _ _ _ _ (ne_pjoin_of_unprefixed _ _ _ h)

/-- The path returned by `getCurrentSessionFileFS` is always inside
`sessions/`. -/
theorem getCurrentSessionFileFS_shape (fs : FS) (base p : JStr)
    (h : getCurrentSessionFileFS fs base = some p) :
    ∃ n, p = pjoin (sessionsDirPath base) n := by
  unfold getCurrentSessionFileFS at h
  cases hg : getCurrentSessionFile ((readdirFS fs (sessionsDirPath base)).map
      (fun n => (n, readFileFS fs (pjoin (sessionsDirPath base) n)))) with
  | none =>
    rw [hg] at h
    simp at h
  | some n =>
    rw [hg] at h
    simp at h
    exact ⟨n, h.symm⟩

/-- Frame for the session branch: it writes only inside `daily/` (via
`loadContext`) and `sessions/`. -/
theorem getFS_sessionBranchFS (fs : FS) (base : JStr) (env : UMBEnv) (q : JStr)
    (hd : (dailyDirPath base ++ ['/']).isPrefixOf q = false)
    (hs : (sessionsDirPath base ++ ['/']).isPrefixOf q = false) :
    getFS (sessionBranchFS fs base env) q = getFS fs q := by
  simp only [sessionBranchFS]
  split
  · rw [getFS_createSessionFileFS _ _ _ _ _ _ hs, getFS_loadContextFS _ _ _ _ hd]
  · cases hc : getCurrentSessionFileFS fs base with
    | some p =>
      obtain ⟨n, rfl⟩ := getCurrentSessionFileFS_shape fs base p hc
      show getFS (updateSessionEndTimeFS fs (pjoin (sessionsDirPath base) n) env.tsNow) q = _
      unfold updateSessionEndTimeFS
      exact getFS_fsWrite_ne _ _ _ _ (ne_pjoin_of_unprefixed _ _ _ hs)
    | none =>
      exact getFS_createSessionFileFS _ _ _ _ _ _ hs

/-- Frame for the archive fold: a path that is neither the source nor the
destination of any performed move is untouched. -/
theorem getFS_archiveFold (base cutoff q : JStr) (names : List JStr)
    (h : ∀ f ∈ names, shouldArchive f cutoff = true →
      q ≠ pjoin (dailyDirPath base) f ∧ q ≠ pjoin (archiveDirPath base) f) :
    ∀ acc : FS, getFS (names.foldl (fun acc file =>
      if shouldArchive file cutoff
      then fsMove acc (pjoin (dailyDirPath base) file) (pjoin (archiveDirPath base) file)
      else acc) acc) q = getFS acc q := by
  induction names with
  | nil =>
    intro acc
    rfl
  | cons f rest ih =>
    intro acc
    rw [List.foldl_cons]
    by_cases hf : shouldArchive f cutoff = true
    · rw [if_pos hf, ih (fun g hg hgc => h g (List.mem_cons_of_mem _ hg) hgc)]
      obtain ⟨h1, h2⟩ := h f (List.mem_cons_self _ _) hf
      exact getFS_fsMove_ne _ _ _ _ h1 h2
    · rw [if_neg hf]
      exact ih (fun g hg hgc => h g (List.mem_cons_of_mem _ hg) hgc) acc

/-- Frame for `archiveOldFilesFS`: it touches only `daily/` and `archive/`. -/
theorem getFS_archiveOldFilesFS (fs : FS) (base cutoff q : JStr)
    (hd : (dailyDirPath base ++ ['/']).isPrefixOf q = false)
    (ha : (archiveDirPath base ++ ['/']).isPrefixOf q = false) :
    getFS (archiveOldFilesFS fs base cutoff) q = getFS fs q := by
  unfold archiveOldFilesFS
  exact getFS_archiveFold base cutoff q _
    (fun f _ _ => ⟨ne_pjoin_of_unprefixed _ _ _ hd, ne_pjoin_of_unprefixed _ _ _ ha⟩) fs

/-- Frame for `updateProductContextFS`: it writes only `productContext.md`. -/
theorem getFS_updateProductContextFS (fs : FS) (base ts q : JStr) (u : PCUpdate)
    (h : q ≠ productContextPath base) :
    getFS (updateProductContextFS fs base ts u).1 q = getFS fs q := by
  unfold updateProductContextFS
  exact getFS_fsWrite_ne _ _ _ _ h

/-- Frame for `updateDailyActiveContextFS`: it writes only inside `daily/`. -/
theorem getFS_updateDailyActiveContextFS (fs : FS) (base d ts q : JStr) (u : ACUpdate)
    (h : (dailyDirPath base ++ ['/']).isPrefixOf q = false) :
    getFS (updateDailyActiveContextFS fs base d ts u).1 q = getFS fs q := by
  unfold updateDailyActiveContextFS
  rw [getFS_fsWrite_ne _ _ _ _ (ne_pjoin_of_unprefixed _ _ _ h),
    getFS_createDailyFileFS _ _ _ _ h]

/-- Frame for `updateActiveContextFS`: it writes only inside `daily/`, the
master `activeContext.md` and the `.last_update` marker. -/
theorem getFS_updateActiveContextFS (fs : FS) (base : JStr) (env : UMBEnv)
    (u : ACUpdate) (q : JStr)
    (hd : (dailyDirPath base ++ ['/']).isPrefixOf q = false)
    (hac : q ≠ activeContextPath base) (hlu : q ≠ lastUpdatePath base) :
    getFS (updateActiveContextFS fs base env u).1 q = getFS fs q := by
  unfold updateActiveContextFS
  rw [getFS_fsWrite_ne _ _ _ _ hlu, getFS_fsWrite_ne _ _ _ _ hac,
    getFS_updateDailyActiveContextFS _ _ _ _ _ _ hd]

/-- Frame for the whole `handleUMBCommand`: an untouched path keeps its
content (and existence status) across the command. -/
theorem getFS_handleUMBCommandFS (fs : FS) (base : JStr) (env : UMBEnv)
    (updates : UMBUpdates) (q : JStr) (h : untouchedPath base q) :
    getFS (handleUMBCommandFS fs base env updates).fs q = getFS fs q := by
  obtain ⟨hd, hs, ha, hpc, hac, hlu⟩ := h
  unfold handleUMBCommandFS
  cases hup : updates.productContext with
  | none =>
    cases hua : updates.activeContext with
    | none =>
      simp only [hup, hua, aggregateDailyFilesFS, List.isEmpty_nil, if_pos]
      rw [getFS_archiveOldFilesFS _ _ _ _ hd ha, getFS_sessionBranchFS _ _ _ _ hd hs]
    | some ac =>
      simp only [hup, hua, aggregateDailyFilesFS]
      rw [if_neg (by simp)]
      rw [getFS_fsWrite_ne _ _ _ _ hlu, getFS_archiveOldFilesFS _ _ _ _ hd ha,
        getFS_updateActiveContextFS _ _ _ _ _ hd hac hlu,
        getFS_sessionBranchFS _ _ _ _ hd hs]
  | some pc =>
    cases hua : updates.activeContext with
    | none =>
      simp only [hup, hua, aggregateDailyFilesFS]
      rw [if_neg (by simp)]
      rw [getFS_fsWrite_ne _ _ _ _ hlu, getFS_archiveOldFilesFS _ _ _ _ hd ha,
        getFS_updateProductContextFS _ _ _ _ _ hpc,
        getFS_sessionBranchFS _ _ _ _ hd hs]
    | some ac =>
      simp only [hup, hua, aggregateDailyFilesFS]
      rw [if_neg (by simp)]
      rw [getFS_fsWrite_ne _ _ _ _ hlu, getFS_archiveOldFilesFS _ _ _ _ hd ha,
        getFS_updateActiveContextFS _ _ _ _ _ hd hac hlu,
        getFS_updateProductContextFS _ _ _ _ _ hpc,
        getFS_sessionBranchFS _ _ _ _ hd hs]

/-- Joining distinct names under the same directory gives distinct paths. -/
theorem pjoin_inj (a x y : JStr) (h : pjoin a x = pjoin a y) : x = y := by
  rw [pjoin_eq_append, pjoin_eq_append] at h
  exact List.append_cancel_left h

/-- Paths under two sibling subdirectories whose names start with different
characters are always distinct. -/
theorem pjoin_subdir_ne (base s t f g : JStr) (c1 c2 : Char) (s1 t1 : JStr)
    (hs : s = c1 :: s1) (ht : t = c2 :: t1) (hne : c1 ≠ c2) :
    pjoin (pjoin base s) f ≠ pjoin (pjoin base t) g := by
  subst hs
  subst ht
  rw [pjoin_eq_append, pjoin_eq_append, pjoin_eq_append, pjoin_eq_append]
  simp only [List.append_assoc]
  intro h
  have h2 := List.append_cancel_left h
  have h3 := List.append_cancel_left h2
  simp only [List.cons_append, List.cons.injEq] at h3
  exact hne h3.1

/-- A path in `daily/` never coincides with a path in `archive/`. -/
theorem daily_ne_archive (base f g : JStr) :
    pjoin (dailyDirPath base) f ≠ pjoin (archiveDirPath base) g := by
  unfold dailyDirPath archiveDirPath
  exact pjoin_subdir_ne base _ _ f g 'd' 'a' (chars "aily") (chars "rchive")
    (by decide) (by decide) (by decide)

/-- Unfolded character-list form of the `".md"` suffix. -/
theorem mdChars_eq : chars ".md" = '.' :: 'm' :: 'd' :: [] := rfl

/-- If `".md"` does not occur in `d`, its first occurrence in `d ++ ".md"` is
exactly at the end: no earlier occurrence exists (none can straddle the seam
because no proper suffix of `".md"` matches its start). -/
theorem md_no_early_occurrence (d : JStr)
    (hd : ∀ k, (chars ".md").isPrefixOf (d.drop k) = false) :
    ∀ j, j < d.length → (chars ".md").isPrefixOf ((d ++ chars ".md").drop j) = false := by
  intro j hj
  by_cases hcase : j + 3 ≤ d.length
  · have htk : (d ++ chars ".md").take d.length = d.take d.length := by
      rw [List.take_append_of_le_length (Nat.le_refl _)]
    rw [prefix_drop_congr (chars ".md") (d ++ chars ".md") d d.length j htk
      (by rw [mdChars_eq]; simpa using hcase)]
    exact hd j
  · have hsplit : (d ++ chars ".md").drop j = d.drop j ++ chars ".md" :=
      List.drop_append_of_le_length (by omega)
    have hxlen : (d.drop j).length ≤ 2 := by
      rw [List.length_drop]
      omega
    rw [hsplit]
    rcases hx : d.drop j with _ | ⟨a, _ | ⟨b, _ | ⟨c0, x2⟩⟩⟩
    · have : (d.drop j).length = d.length - j := List.length_drop _ _
      rw [hx] at this
      simp at this
      omega
    · simp [mdChars_eq, List.isPrefixOf]
    · simp [mdChars_eq, List.isPrefixOf]
    · rw [hx] at hxlen
      simp at hxlen

/-- The date string the archiver extracts from a well-formed daily file name
is the embedded date, provided the date itself does not contain `".md"`. -/
theorem dateStrOf_dailyFileName (d : JStr) (h : containsSub (chars ".md") d = false) :
    dateStrOf (dailyFileName d) = d := by
  have hdnone : ∀ k, (chars ".md").isPrefixOf (d.drop k) = false := by
    apply findSub_none
    unfold containsSub at h
    exact Option.not_isSome_iff_eq_none.mp (by simp [h])
  unfold dateStrOf dailyFileName
  have hassoc : chars "activeContext-" ++ d ++ chars ".md"
      = chars "activeContext-" ++ (d ++ chars ".md") := by
    rw [List.append_assoc]
  rw [hassoc]
  have h1 : jsReplace (chars "activeContext-") []
      (chars "activeContext-" ++ (d ++ chars ".md")) = d ++ chars ".md" := by
    unfold jsReplace
    have hf : findSub (chars "activeContext-")
        (chars "activeContext-" ++ (d ++ chars ".md")) = some 0 := by
      apply findSub_eq_some_of
      · rw [List.drop_zero]
        exact isPrefixOf_append_self (chars "activeContext-") (d ++ chars ".md")
      · intro j hj
        omega
    rw [hf]
    simp only [List.take_zero, List.nil_append, Nat.zero_add]
    exact List.drop_left _ _
  rw [h1]
  unfold jsReplace
  have hf2 : findSub (chars ".md") (d ++ chars ".md") = some d.length := by
    apply findSub_eq_some_of
    · rw [List.drop_left]
      have hself := isPrefixOf_append_self (chars ".md") []
      rwa [List.append_nil] at hself
    · exact md_no_early_occurrence d hdnone
  rw [hf2]
  show (d ++ chars ".md").take d.length ++ [] ++
    (d ++ chars ".md").drop (d.length + (chars ".md").length) = d
  have hfinal : (d ++ chars ".md").drop (d.length + (chars ".md").length) = [] := by
    apply List.drop_eq_nil_of_le
    simp
  rw [hfinal]
  simp [List.take_append_of_le_length (Nat.le_refl d.length)]

/-- A daily file dated exactly at the cutoff is not selected for archiving. -/
theorem shouldArchive_boundary (d : JStr) (h : containsSub (chars ".md") d = false) :
    shouldArchive (dailyFileName d) d = false := by
  unfold shouldArchive
  rw [dateStrOf_dailyFileName d h, jsStrLt_irrefl]
  simp

/-- Claim C7: `archiveOldFiles` archives only files strictly older than the
threshold.  A daily file whose embedded date string equals the cutoff date
string keeps its entry in the daily directory unchanged, and nothing appears
at its would-be archive path (the hypothesis that the date contains no
`".md"` reflects the `replace('.md', '')` name parsing; every real date
string satisfies it). -/
theorem C7_boundary_not_archived (fs : FS) (base d : JStr)
    (hnomd : containsSub (chars ".md") d = false) :
    getFS (archiveOldFilesFS fs base d) (pjoin (dailyDirPath base) (dailyFileName d))
      = getFS fs (pjoin (dailyDirPath base) (dailyFileName d)) ∧
    getFS (archiveOldFilesFS fs base d) (pjoin (archiveDirPath base) (dailyFileName d))
      = getFS fs (pjoin (archiveDirPath base) (dailyFileName d)) := by
  constructor
  · unfold archiveOldFilesFS
    apply getFS_archiveFold
    intro f _ hfc
    constructor
    · intro hq
      have hfd : dailyFileName d = f := pjoin_inj _ _ _ hq
      rw [← hfd] at hfc
      rw [shouldArchive_boundary d hnomd] at hfc
      exact absurd hfc (by simp)
    · exact daily_ne_archive base (dailyFileName d) f
  · unfold archiveOldFilesFS
    apply getFS_archiveFold
    intro f _ hfc
    constructor
    · exact fun hq => daily_ne_archive base f (dailyFileName d) hq.symm
    · intro hq
      have hfd : dailyFileName d = f := pjoin_inj _ _ _ hq
      rw [← hfd] at hfc
      rw [shouldArchive_boundary d hnomd] at hfc
      exact absurd hfc (by simp)

/-- Witness for `C7_boundary_not_archived`: a daily file dated exactly at the
cutoff stays in place. -/
theorem C7_witness :
    getFS (archiveOldFilesFS
        [(pjoin (dailyDirPath (chars "mb")) (dailyFileName (chars "2024-02-01")), chars "x")]
        (chars "mb") (chars "2024-02-01"))
      (pjoin (dailyDirPath (chars "mb")) (dailyFileName (chars "2024-02-01")))
      = some (chars "x") ∧
    getFS (archiveOldFilesFS
        [(pjoin (dailyDirPath (chars "mb")) (dailyFileName (chars "2024-02-01")), chars "x")]
        (chars "mb") (chars "2024-02-01"))
      (pjoin (archiveDirPath (chars "mb")) (dailyFileName (chars "2024-02-01")))
      = none := by
  have h := C7_boundary_not_archived
    [(pjoin (dailyDirPath (chars "mb")) (dailyFileName (chars "2024-02-01")), chars "x")]
    (chars "mb") (chars "2024-02-01") (by decide)
  constructor
  · rw [h.1]
    decide
  · rw [h.2]
    decide

/-- Claim C2 is contradicted by the code: an old daily file
(`activeContext-2024-01-05.md`, cutoff `2024-02-01`) is indeed moved out of
the daily directory, but it lands in the flat `archive/` directory, not in
`archive/2024-01/` — the code joins the archive directory with the bare file
name and never builds a year-month subdirectory. -/
theorem C2_archive_destination_flat :
    fsExists
      (archiveOldFilesFS
        [(chars "mb/daily/activeContext-2024-01-05.md", chars "daily content")]
        (chars "mb") (chars "2024-02-01"))
      (chars "mb/daily/activeContext-2024-01-05.md") = false ∧
    fsExists
      (archiveOldFilesFS
        [(chars "mb/daily/activeContext-2024-01-05.md", chars "daily content")]
        (chars "mb") (chars "2024-02-01"))
      (chars "mb/archive/activeContext-2024-01-05.md") = true ∧
    fsExists
      (archiveOldFilesFS
        [(chars "mb/daily/activeContext-2024-01-05.md", chars "daily content")]
        (chars "mb") (chars "2024-02-01"))
      (chars "mb/archive/2024-01/activeContext-2024-01-05.md") = false := by
  refine ⟨by decide, by decide, by decide⟩

/-- Claim C4 as stated is false on the code: starting from an empty base
directory (no `.last_update` marker, so `shouldStartNewSession` is
deterministically true), two invocations of the session branch of
`handleUMBCommand` each create a fresh session file and never close the
previous one, leaving two session files with the in-progress end-time
sentinel. -/
theorem C4_counterexample :
    countInProgressFS
      (sessionBranchFS
        (sessionBranchFS [] (chars "mb")
          ⟨true, chars "2025-01-01 00:00:00", chars "2025-01-01T00-00-00-000Z",
            chars "2025-01-01", chars "2025-01-01T00:00:00.000Z", chars "2024-12-25"⟩)
        (chars "mb")
        ⟨true, chars "2025-01-01 03:00:00", chars "2025-01-01T03-00-00-000Z",
          chars "2025-01-01", chars "2025-01-01T03:00:00.000Z", chars "2024-12-25"⟩)
      (chars "mb") = 2 := by
  decide

/-- Claim C4, amended: what the session manager actually guarantees is that
at most one session file is ever treated as current — when
`getCurrentSessionFile` returns a path it is the lexicographically greatest
session file name, its content still carries the in-progress sentinel, and
every other session file name compares `≤` to it; multiple session files can
simultaneously carry the in-progress end-time sentinel
(`C4_counterexample`). -/
theorem C4_current_session_unique (dir : List (JStr × JStr)) (p : JStr)
    (h : getCurrentSessionFile dir = some p) :
    isSessionName p = true ∧
    p ∈ (dir.map Prod.fst).filter isSessionName ∧
    ((dir.map Prod.fst).filter isSessionName).all (fun q => jsLeB q p) = true ∧
    containsSub inProgressNeedle (dirRead dir p) = true := by
  simp only [getCurrentSessionFile] at h
  rcases hrev : (List.insertionSort jsLe ((dir.map Prod.fst).filter isSessionName)).reverse
    with _ | ⟨top, rest⟩
  · rw [hrev] at h
    simp at h
  · rw [hrev] at h
    obtain ⟨htopmem, hub⟩ := sortDesc_head_max _ _ _ hrev
    by_cases hc : containsSub inProgressNeedle (dirRead dir top) = true
    · simp only [hc, if_true] at h
      have hp : top = p := by
        simpa using h
      subst hp
      refine ⟨(List.mem_filter.mp htopmem).2, htopmem, ?_, hc⟩
      rw [List.all_eq_true]
      intro q hq
      exact hub q hq
    · simp only [Bool.not_eq_true] at hc
      simp [hc] at h

/-- Witness for `C4_current_session_unique`: with two in-progress files the
current session is the later one, dominating both names. -/
theorem C4_witness :
    isSessionName (chars "session-2025-01-02T00-00-00-000Z.md") = true ∧
    chars "session-2025-01-02T00-00-00-000Z.md" ∈
      (([(chars "session-2025-01-01T00-00-00-000Z.md", chars "## End Time\n(In progress)\n"),
         (chars "session-2025-01-02T00-00-00-000Z.md", chars "## End Time\n(In progress)\n")].map
          Prod.fst).filter isSessionName) ∧
    ((([(chars "session-2025-01-01T00-00-00-000Z.md", chars "## End Time\n(In progress)\n"),
        (chars "session-2025-01-02T00-00-00-000Z.md", chars "## End Time\n(In progress)\n")].map
         Prod.fst).filter isSessionName).all
      (fun q => jsLeB q (chars "session-2025-01-02T00-00-00-000Z.md"))) = true ∧
    containsSub inProgressNeedle
      (dirRead
        [(chars "session-2025-01-01T00-00-00-000Z.md", chars "## End Time\n(In progress)\n"),
         (chars "session-2025-01-02T00-00-00-000Z.md", chars "## End Time\n(In progress)\n")]
        (chars "session-2025-01-02T00-00-00-000Z.md")) = true :=
  C4_current_session_unique
    [(chars "session-2025-01-01T00-00-00-000Z.md", chars "## End Time\n(In progress)\n"),
     (chars "session-2025-01-02T00-00-00-000Z.md", chars "## End Time\n(In progress)\n")]
    (chars "session-2025-01-02T00-00-00-000Z.md") (by decide)

/-- Claim C10: `handleUMBCommand` never writes the master files
`systemPatterns.md`, `decisionLog.md` or `progress.md` — whatever the
`updates` argument contains (including `systemPatterns`, `decision` and
`progress` fields) — and its `updatedFiles` list can only ever name
`productContext.md`, `activeContext.md` and the daily file. -/
theorem C10_masters_unchanged (fs : FS) (base : JStr) (env : UMBEnv)
    (updates : UMBUpdates) :
    getFS (handleUMBCommandFS fs base env updates).fs (systemPatternsPath base)
      = getFS fs (systemPatternsPath base) ∧
    getFS (handleUMBCommandFS fs base env updates).fs (decisionLogPath base)
      = getFS fs (decisionLogPath base) ∧
    getFS (handleUMBCommandFS fs base env updates).fs (progressPath base)
      = getFS fs (progressPath base) ∧
    (handleUMBCommandFS fs base env updates).updatedFiles.all
      (fun f => f == chars "productContext.md" || f == chars "activeContext.md"
        || f == chars "daily/" ++ dailyFileName env.dateStr) = true := by
  refine ⟨getFS_handleUMBCommandFS _ _ _ _ _ (untouchedPath_systemPatterns base),
    getFS_handleUMBCommandFS _ _ _ _ _ (untouchedPath_decisionLog base),
    getFS_handleUMBCommandFS _ _ _ _ _ (untouchedPath_progress base), ?_⟩
  cases hup : updates.productContext with
  | none =>
    cases hua : updates.activeContext with
    | none => simp [handleUMBCommandFS, hup, hua]
    | some ac => simp [handleUMBCommandFS, hup, hua]
  | some pc =>
    cases hua : updates.activeContext with
    | none => simp [handleUMBCommandFS, hup, hua]
    | some ac => simp [handleUMBCommandFS, hup, hua]

end MemBank
